import Mathlib

/-!
Verification of the phase-to-day scheduling core of the Scheduler repository
(`src/services/gemini_service.py`, with the approval flow of `src/main.py`).

The development shallowly embeds:
* the timeline parser `_parse_timeline_to_days` (lines 186-231),
* the allocator `compute_phase_day_ranges` (lines 233-293),
* the fallback distributor `_fallback_distribute_tasks` (lines 385-449),
* the orchestrator `generate_daily_tasks_from_roadmap` (lines 295-383) and the
  surrounding `approve_roadmap` recovery (main.py lines 358-367).

Conventions: Python integers are `Int`.  Python `//` and `%` are floor
division/modulus; every division site in the embedded code has a positive
divisor, where floor division coincides with Lean's Euclidean `/` and `%` on
`Int`, so the latter are used.  The external generator (`model.generate_content`
plus `_extract_json` and the `"daily_tasks"` key lookup) is modelled as an
opaque outcome: it raises, returns unusable output, or returns a structured
item list.
-/

/-- A roadmap phase (`phases` entries in `gemini_service.py`): a dict with
`title`, `timeline`, `goal`, `tasks`, `success_criteria`. -/
structure Phase where
  title : String
  timeline : String
  goal : String
  tasks : List String
  success_criteria : List String
deriving DecidableEq

/-- A fully-populated daily-task dict as produced by
`_fallback_distribute_tasks` (lines 441-447). -/
structure DailyTask where
  day : Int
  phase_index : Nat
  title : String
  description : String
  priority : Int
deriving DecidableEq

/-- A structured item from the external generator's JSON (`daily_tasks`
entries).  Keys may be absent, hence `Option` fields; the source reads them
with `t.get("phase_index", 0)` and `t.get("day", s)`. -/
structure TaskItem where
  day : Option Int
  phase_index : Option Int
  title : Option String
  description : Option String
  priority : Option Int
deriving DecidableEq

/-- Outcome of the external generation call in
`generate_daily_tasks_from_roadmap`: the call raises, or it returns text whose
JSON extraction plus `"daily_tasks"` lookup yields `none` (unusable) or a list
of structured items. -/
inductive GenOutcome where
  | raised : GenOutcome
  | returned : Option (List TaskItem) → GenOutcome
deriving DecidableEq

/-! ## Timeline parser (`_parse_timeline_to_days`, lines 186-231)

The source lowercases and strips the input, then tries seven `re.search`
patterns in order.  Each pattern is built from `\d+`, `\s*`, literal unit
words with an optional trailing `s`, and the character class `[-–to]`; all of
these are deterministic (no backtracking can change the result), so they are
embedded as plain greedy matchers over the character list, with `re.search`'s
leftmost-position semantics given by trying every suffix. -/

/-- Python's `\s` on the relevant ASCII whitespace characters. -/
def isPySpace (c : Char) : Bool :=
  c = ' ' || c = '\t' || c = '\n' || c = '\r' || c = '\x0b' || c = '\x0c'

/-- `str.strip()`: drop leading and trailing whitespace. -/
def pyStrip (cs : List Char) : List Char :=
  ((cs.dropWhile isPySpace).reverse.dropWhile isPySpace).reverse

/-- Decimal value of a digit run (`int(m.group(k))`). -/
def digitsToNat (ds : List Char) : Nat :=
  ds.foldl (fun a c => a * 10 + (c.toNat - 48)) 0

/-- Greedy `(\d+)`: one or more digits, returning their value and the rest. -/
def takeDigits (cs : List Char) : Option (Int × List Char) :=
  let ds := cs.takeWhile Char.isDigit
  if ds = [] then none
  else some (((digitsToNat ds : Nat) : Int), cs.dropWhile Char.isDigit)

/-- Greedy `\s*`. -/
def skipSpaces (cs : List Char) : List Char := cs.dropWhile isPySpace

/-- Match a literal string. -/
def litMatch : List Char → List Char → Option (List Char)
  | [], cs => some cs
  | _ :: _, [] => none
  | l :: ls, c :: cs => if c = l then litMatch ls cs else none

/-- Greedy optional `s` (the `s?` of `weeks?` / `months?`). -/
def optS : List Char → List Char
  | [] => []
  | c :: cs => if c = 's' then cs else c :: cs

/-- The character class `[-–to]` of the range patterns. -/
def isRangeSep (c : Char) : Bool := c = '-' || c = '–' || c = 't' || c = 'o'

/-- Greedy `[-–to]+`. -/
def sepMatch : List Char → Option (List Char)
  | [] => none
  | c :: rest => if isRangeSep c then some (rest.dropWhile isRangeSep) else none

/-- Match `(\d+)\s*UNITs?` at the current position, returning the number. -/
def numUnitMatch (unit : List Char) (cs : List Char) : Option Int :=
  match takeDigits cs with
  | none => none
  | some (v, r) =>
    match litMatch unit (skipSpaces r) with
    | none => none
    | some _ => some v

/-- Match `UNITs?\s*(\d+)\s*[-–to]+\s*(\d+)` at the current position. -/
def unitRangeMatch (unit : List Char) (cs : List Char) : Option (Int × Int) :=
  match litMatch unit cs with
  | none => none
  | some r =>
    match takeDigits (skipSpaces (optS r)) with
    | none => none
    | some (x, r2) =>
      match sepMatch (skipSpaces r2) with
      | none => none
      | some r3 =>
        match takeDigits (skipSpaces r3) with
        | none => none
        | some (y, _) => some (x, y)

/-- Match `UNITs?\s*(\d+)$` (anchored at the end of the string). -/
def unitTrailingMatch (unit : List Char) (cs : List Char) : Option Unit :=
  match litMatch unit cs with
  | none => none
  | some r =>
    match takeDigits (skipSpaces (optS r)) with
    | some (_, []) => some ()
    | _ => none

/-- `re.search`: try the matcher at every position, leftmost match wins. -/
def searchPos {α : Type} (m : List Char → Option α) : List Char → Option α
  | [] => m []
  | c :: cs =>
    match m (c :: cs) with
    | some v => some v
    | none => searchPos m cs

/-- `GeminiService._parse_timeline_to_days` (lines 186-231): lowercase and
strip, then try the seven patterns in source order; `None` when nothing
matches. -/
def _parse_timeline_to_days (timeline : String) : Option Int :=
  if timeline = "" then none
  else
    let text := pyStrip (timeline.data.map Char.toLower)
    match searchPos (numUnitMatch "week".data) text with
    | some v => some (v * 7)
    | none =>
    match searchPos (unitRangeMatch "week".data) text with
    | some (x, y) => some ((y - x + 1) * 7)
    | none =>
    match searchPos (unitTrailingMatch "week".data) text with
    | some _ => some 7
    | none =>
    match searchPos (numUnitMatch "month".data) text with
    | some v => some (v * 30)
    | none =>
    match searchPos (unitRangeMatch "month".data) text with
    | some (x, y) => some ((y - x + 1) * 30)
    | none =>
    match searchPos (unitTrailingMatch "month".data) text with
    | some _ => some 30
    | none =>
    match searchPos (numUnitMatch "day".data) text with
    | some v => some v
    | none => none

/-! ## Phase allocator (`compute_phase_day_ranges`, lines 233-293)

The durations are Python ints (`Int` here); parsed timeline hints can be zero
or negative (e.g. `"week 3-1"`), and the source handles them as ordinary ints.
The step-5 scaling is computed in the source with Python floats
(`scale = total_days / dur_sum; int(round(d * scale))`); it is modelled here
in exact arithmetic as the rational `d * total_days / dur_sum` rounded to the
nearest integer with ties to even, which is Python's rounding mode.  No claim
in this development depends on the residual float/rational divergence. -/

/-- The parsed duration hints, line 249:
`[_parse_timeline_to_days(p.get('timeline', '')) for p in phases]`. -/
def parsedOf (phases : List Phase) : List (Option Int) :=
  phases.map fun p => _parse_timeline_to_days p.timeline

/-- `int(round(num / den))` for `den > 0`: nearest integer, ties to even. -/
def pyRound (num den : Int) : Int :=
  let q := num / den
  let r := num % den
  if 2 * r < den then q
  else if den < 2 * r then q + 1
  else if q % 2 = 0 then q else q + 1

/-- The mixed-case loop, lines 264-269: `for i, d in enumerate(parsed)`, a
known phase keeps `d`, an unknown phase gets
`per_unknown + (1 if i < extra else 0)` where `i` is the index in the full
phase list. -/
def mixDurs (per_unknown extra : Int) : List (Option Int) → Nat → List Int
  | [], _ => []
  | some d :: rest, i => d :: mixDurs per_unknown extra rest (i + 1)
  | none :: rest, i =>
      (per_unknown + if (i : Int) < extra then 1 else 0) ::
        mixDurs per_unknown extra rest (i + 1)

/-- Steps 2-4 (lines 251-271): the `durations` list before any rescaling. -/
def durationsInit (parsed : List (Option Int)) (total_days : Int) : List Int :=
  let n := parsed.length
  let known_total := (parsed.filterMap id).sum
  let unknown_count := (parsed.filter fun d => d.isNone).length
  if unknown_count = n then
    (List.range n).map fun (i : Nat) =>
      total_days / (n : Int) + if (i : Int) < total_days % (n : Int) then 1 else 0
  else if 0 < unknown_count then
    mixDurs (max (total_days - known_total) (unknown_count : Int) / (unknown_count : Int))
      (max (total_days - known_total) (unknown_count : Int) % (unknown_count : Int))
      parsed 0
  else
    parsed.map fun d => d.getD 0

/-- The round-robin correction loop, lines 279-283: `k` remaining iterations,
`i` the running loop counter; each step adds `delta` (`1 if diff > 0 else -1`)
to `durations[i % n]` and then floors that entry at 1. -/
def rrLoop (delta : Int) (n : Nat) : Nat → Nat → List Int → List Int
  | 0, _, durs => durs
  | k + 1, i, durs =>
      rrLoop delta n k (i + 1)
        (durs.set (i % n) (max (durs.getD (i % n) 0 + delta) 1))

/-- Step 5 (lines 274-283): scale every duration to
`max(int(round(d * total_days / dur_sum)), 1)`, then run the round-robin
correction for exactly `|total_days - sum|` iterations. -/
def rescaleDurs (durations : List Int) (total_days dur_sum : Int) (n : Nat) : List Int :=
  let scaled := durations.map fun d => max (pyRound (d * total_days) dur_sum) 1
  let diff := total_days - scaled.sum
  rrLoop (if 0 < diff then 1 else -1) n diff.natAbs 0 scaled

/-- Step 6 (lines 286-293): fold the durations into contiguous
`(start_day, end_day, duration)` triples starting at day `current`, flooring
each duration at 1. -/
def buildRanges : List Int → Int → List (Int × Int × Int)
  | [], _ => []
  | d :: rest, current =>
      (current, current + max d 1 - 1, max d 1) :: buildRanges rest (current + max d 1)

/-- Allocator core on the parsed hints (`compute_phase_day_ranges` after
line 249): steps 2-6. -/
def rangesFromParsed (parsed : List (Option Int)) (total_days : Int) :
    List (Int × Int × Int) :=
  let n := parsed.length
  if n = 0 then []
  else
    let durations := durationsInit parsed total_days
    let dur_sum := durations.sum
    let durations :=
      if dur_sum ≠ total_days ∧ 0 < dur_sum then
        rescaleDurs durations total_days dur_sum n
      else durations
    buildRanges durations 1

/-- `GeminiService.compute_phase_day_ranges` (lines 233-293). -/
def compute_phase_day_ranges (phases : List Phase) (total_days : Int) :
    List (Int × Int × Int) :=
  rangesFromParsed (parsedOf phases) total_days

/-! ## Fallback distributor (`_fallback_distribute_tasks`, lines 385-449) -/

/-- The three framing actions, lines 413-417. -/
def fallbackActions : List (String × Int) :=
  [("Study: ", 5), ("Practice: ", 4), ("Review: ", 3)]

/-- The inner action loop (lines 418-424): append one `(label + task, task,
prio)` triple per action, breaking as soon as the expanded list reaches
`target_count`. -/
def innerLoop (task : String) (target : Int) :
    List (String × Int) → List (String × String × Int) → List (String × String × Int)
  | [], acc => acc
  | (label, prio) :: rest, acc =>
      let acc' := acc ++ [(label ++ task, task, prio)]
      if target ≤ (acc'.length : Int) then acc'
      else innerLoop task target rest acc'

/-- The outer loop over the phase's tasks (lines 418-424), breaking once the
expanded list reaches `target_count`. -/
def outerLoop (target : Int) :
    List String → List (String × String × Int) → List (String × String × Int)
  | [], acc => acc
  | t :: ts, acc =>
      let acc' := innerLoop t target fallbackActions acc
      if target ≤ (acc'.length : Int) then acc'
      else outerLoop target ts acc'

/-- The `Continue:` fill loop (lines 426-432): while the expanded list is
short of `target_count` and the task list is non-empty, append
`Continue: tasks[idx % len(tasks)]` at priority 3, then increment `idx` and
break once `idx > target_count * 2`. -/
def continueFill (tasks : List String) (target : Int) (idx : Nat)
    (acc : List (String × String × Int)) : List (String × String × Int) :=
  if (acc.length : Int) < target ∧ tasks ≠ [] then
    let t := tasks.getD (idx % tasks.length) ""
    let acc' := acc ++ [("Continue: " ++ t, t, (3 : Int))]
    if target * 2 < (idx : Int) + 1 then acc'
    else continueFill tasks target (idx + 1) acc'
  else acc
termination_by (target * 2 + 1 - (idx : Int)).toNat
decreasing_by omega

/-- Lines 410-435: the `expanded` list.  When the authored list is shorter
than `target_count` it is expanded by the action and `Continue:` loops;
otherwise it is used as-is with descending priorities `max(5 - j, 1)`. -/
def expandTasks (phase_tasks : List String) (target : Int) :
    List (String × String × Int) :=
  if (phase_tasks.length : Int) < target then
    continueFill phase_tasks target 0 (outerLoop target phase_tasks [])
  else
    phase_tasks.enum.map fun p => (p.2, p.2, max (5 - (p.1 : Int)) 1)

/-- The loop body for one phase (lines 402-447): skip a phase with no tasks,
look up its range (defaulting to `(1, total_days, total_days)` when the index
is out of the range list), expand the tasks to
`target_count = max(dur * 2, len(tasks))` and spread them evenly across the
range, clamping each computed day into `[start_d, end_d]`. -/
def distributePhase (phase_ranges : List (Int × Int × Int)) (total_days : Int)
    (phase_idx : Nat) (phase : Phase) : List DailyTask :=
  if phase.tasks = [] then []
  else
    let r := phase_ranges.getD phase_idx (1, total_days, total_days)
    let expanded := expandTasks phase.tasks (max (r.2.2 * 2) (phase.tasks.length : Int))
    expanded.enum.map fun p =>
      { day := max r.1 (min (r.1 + (p.1 : Int) * r.2.2 / (expanded.length : Int)) r.2.1)
        phase_index := phase_idx
        title := p.2.1
        description := p.2.2.1
        priority := p.2.2.2 }

/-- The `for phase_idx, phase in enumerate(phases)` loop of
`_fallback_distribute_tasks`, concatenating the per-phase results in phase
order. -/
def fallbackLoop (phase_ranges : List (Int × Int × Int)) (total_days : Int) :
    Nat → List Phase → List DailyTask
  | _, [] => []
  | i, p :: rest =>
      distributePhase phase_ranges total_days i p ++
        fallbackLoop phase_ranges total_days (i + 1) rest

/-- `GeminiService._fallback_distribute_tasks` (lines 385-449).  The
`phase_ranges` parameter is `Optional` in the source and recomputed when
`None`. -/
def _fallback_distribute_tasks (phases : List Phase) (total_days : Int)
    (phase_rangesOpt : Option (List (Int × Int × Int))) : List DailyTask :=
  if phases = [] then []
  else
    fallbackLoop (phase_rangesOpt.getD (compute_phase_day_ranges phases total_days))
      total_days 0 phases

/-! ## Orchestrator (`generate_daily_tasks_from_roadmap`, lines 295-383, and
`approve_roadmap`, main.py lines 358-367) -/

/-- View of a fallback task as a generator-shaped item (all keys present). -/
def DailyTask.toItem (t : DailyTask) : TaskItem :=
  { day := some t.day
    phase_index := some (t.phase_index : Int)
    title := some t.title
    description := some t.description
    priority := some t.priority }

/-- The validation loop of lines 376-380: read `phase_index` (default 0); when
it lies in `[0, len(phase_ranges))`, clamp `day` (default: the phase's
`start_day`) into the phase's range; otherwise leave the item untouched. -/
def clampTask (phase_ranges : List (Int × Int × Int)) (t : TaskItem) : TaskItem :=
  let pi := t.phase_index.getD 0
  if 0 ≤ pi ∧ pi < (phase_ranges.length : Int) then
    let r := phase_ranges.getD pi.toNat (0, 0, 0)
    { t with day := some (max r.1 (min (t.day.getD r.1) r.2.1)) }
  else t

/-- `GeminiService.generate_daily_tasks_from_roadmap` (lines 295-383): compute
the ranges, call the external generator; on structurally usable output clamp
every item, on unusable output fall back locally; an exception from the
generation call propagates to the caller (`Except.error`). -/
def generate_daily_tasks_from_roadmap (phases : List Phase) (total_days : Int)
    (outcome : GenOutcome) : Except Unit (List TaskItem) :=
  let phase_ranges := compute_phase_day_ranges phases total_days
  match outcome with
  | .raised => .error ()
  | .returned none =>
      .ok ((_fallback_distribute_tasks phases total_days (some phase_ranges)).map
        DailyTask.toItem)
  | .returned (some tasks) => .ok (tasks.map (clampTask phase_ranges))

/-- The schedule-building part of `approve_roadmap` (main.py lines 335-367):
compute the ranges, call `generate_daily_tasks_from_roadmap`, and recover from
any exception by running the fallback distributor on the same ranges. -/
def approve_roadmap_schedule (phases : List Phase) (total_days : Int)
    (outcome : GenOutcome) : List TaskItem :=
  match generate_daily_tasks_from_roadmap phases total_days outcome with
  | .ok ts => ts
  | .error _ =>
      (_fallback_distribute_tasks phases total_days
        (some (compute_phase_day_ranges phases total_days))).map DailyTask.toItem

/-! ## State-threaded translations (frame property)

Python passes `phases` by reference and each loop could in principle assign
into the phase dicts.  To make the frame property of the core statable, the
loops that iterate over the phases are additionally translated in
state-passing style: the accumulator carries the phase-list store, and each
iteration returns the store it received (exactly as the source, which only
ever reads `p.get(...)` from a phase and assigns only into freshly created
lists and the generator's items). -/

/-- State-passing form of the parse comprehension of line 249. -/
def parseLoopSt (store : List Phase) : List Phase × List (Option Int) :=
  store.foldl (fun acc p => (acc.1, acc.2 ++ [_parse_timeline_to_days p.timeline]))
    (store, [])

/-- State-passing form of `compute_phase_day_ranges`. -/
def compute_phase_day_ranges_st (phases : List Phase) (total_days : Int) :
    List Phase × List (Int × Int × Int) :=
  ((parseLoopSt phases).1, rangesFromParsed (parseLoopSt phases).2 total_days)

/-- State-passing form of the `enumerate(phases)` loop of
`_fallback_distribute_tasks`. -/
def fallbackLoopSt (phase_ranges : List (Int × Int × Int)) (total_days : Int)
    (store : List Phase) : List Phase × List DailyTask :=
  store.enum.foldl
    (fun acc pr => (acc.1, acc.2 ++ distributePhase phase_ranges total_days pr.1 pr.2))
    (store, [])

/-- State-passing form of `_fallback_distribute_tasks`. -/
def _fallback_distribute_tasks_st (phases : List Phase) (total_days : Int)
    (phase_rangesOpt : Option (List (Int × Int × Int))) : List Phase × List DailyTask :=
  if phases = [] then (phases, [])
  else
    fallbackLoopSt (phase_rangesOpt.getD (compute_phase_day_ranges phases total_days))
      total_days phases

/-- State-passing form of the schedule-building flow of `approve_roadmap`. -/
def approve_roadmap_schedule_st (phases : List Phase) (total_days : Int)
    (outcome : GenOutcome) : List Phase × List TaskItem :=
  let st1 := compute_phase_day_ranges_st phases total_days
  match outcome with
  | .raised =>
      let st2 := _fallback_distribute_tasks_st st1.1 total_days (some st1.2)
      (st2.1, st2.2.map DailyTask.toItem)
  | .returned none =>
      let st2 := _fallback_distribute_tasks_st st1.1 total_days (some st1.2)
      (st2.1, st2.2.map DailyTask.toItem)
  | .returned (some tasks) => (st1.1, tasks.map (clampTask st1.2))

/-! ## Structural lemmas about the allocator -/

theorem buildRanges_length (ds : List Int) (c : Int) :
    (buildRanges ds c).length = ds.length := by
  induction ds generalizing c with
  | nil => rfl
  | cons d rest ih => simp [buildRanges, ih]

theorem buildRanges_mem (ds : List Int) (c : Int) :
    ∀ r ∈ buildRanges ds c, 1 ≤ r.2.2 ∧ r.2.1 = r.1 + r.2.2 - 1 := by
  induction ds generalizing c with
  | nil => intro r hr; simp [buildRanges] at hr
  | cons d rest ih =>
    intro r hr
    rcases (by simpa [buildRanges] using hr :
        r = (c, c + max d 1 - 1, max d 1) ∨ r ∈ buildRanges rest (c + max d 1)) with h | h
    · subst h
      exact ⟨le_max_right d 1, rfl⟩
    · exact ih _ r h

theorem buildRanges_contig (ds : List Int) (c : Int) (i : Nat)
    (h : i + 1 < (buildRanges ds c).length) :
    ((buildRanges ds c).getD i (0, 0, 0)).2.1 + 1 =
      ((buildRanges ds c).getD (i + 1) (0, 0, 0)).1 := by
  induction ds generalizing c i with
  | nil => simp [buildRanges] at h
  | cons d rest ih =>
    cases i with
    | zero =>
      cases rest with
      | nil => simp [buildRanges] at h
      | cons d' rest' =>
        simp [buildRanges]
    | succ i' =>
      have h' : i' + 1 < (buildRanges rest (c + max d 1)).length := by
        simp [buildRanges] at h
        omega
      simpa [buildRanges] using ih (c + max d 1) i' h'

theorem buildRanges_sum (ds : List Int) (c : Int) (h : ∀ d ∈ ds, 1 ≤ d) :
    ((buildRanges ds c).map fun r => r.2.2).sum = ds.sum := by
  induction ds generalizing c with
  | nil => rfl
  | cons d rest ih =>
    have hmax : max d 1 = d := max_eq_left (h d (by simp))
    simp [buildRanges, hmax, ih (c + d) fun x hx => h x (by simp [hx])]

theorem buildRanges_last (ds : List Int) (c : Int) (hne : ds ≠ [])
    (h : ∀ d ∈ ds, 1 ≤ d) :
    ((buildRanges ds c).getLastD (0, 0, 0)).2.1 = c + ds.sum - 1 := by
  induction ds generalizing c with
  | nil => exact absurd rfl hne
  | cons d rest ih =>
    have hmax : max d 1 = d := max_eq_left (h d (by simp))
    cases rest with
    | nil => simp [buildRanges, hmax]
    | cons d' rest' =>
      have hrec := ih (c + d) (by simp) fun x hx => h x (by simp [hx])
      have hstep : (buildRanges (d :: d' :: rest') c).getLastD (0, 0, 0) =
          (buildRanges (d' :: rest') (c + d)).getLastD (0, 0, 0) := by
        simp [buildRanges, hmax, List.getLastD_cons]
      rw [hstep, hrec]
      simp
      omega

theorem mixDurs_length (per extra : Int) (l : List (Option Int)) (i : Nat) :
    (mixDurs per extra l i).length = l.length := by
  induction l generalizing i with
  | nil => rfl
  | cons d rest ih => cases d <;> simp [mixDurs, ih]

theorem durationsInit_length (parsed : List (Option Int)) (td : Int) :
    (durationsInit parsed td).length = parsed.length := by
  simp only [durationsInit]
  split
  · simp
  · split
    · simp [mixDurs_length]
    · simp

theorem rrLoop_length (delta : Int) (n : Nat) (k : Nat) :
    ∀ (i : Nat) (durs : List Int), (rrLoop delta n k i durs).length = durs.length := by
  induction k with
  | zero => intro i durs; rfl
  | succ k ih => intro i durs; simp [rrLoop, ih]

theorem rescaleDurs_length (durations : List Int) (td ds : Int) (n : Nat) :
    (rescaleDurs durations td ds n).length = durations.length := by
  simp only [rescaleDurs]
  simp [rrLoop_length]

theorem rangesFromParsed_length (parsed : List (Option Int)) (td : Int) :
    (rangesFromParsed parsed td).length = parsed.length := by
  simp only [rangesFromParsed]
  split
  · simp [*]
  · split
    · simp [buildRanges_length, rescaleDurs_length, durationsInit_length]
    · simp [buildRanges_length, durationsInit_length]

theorem rangesFromParsed_eq_buildRanges (parsed : List (Option Int)) (td : Int)
    (h : parsed ≠ []) :
    ∃ ds : List Int, ds.length = parsed.length ∧
      rangesFromParsed parsed td = buildRanges ds 1 := by
  simp only [rangesFromParsed]
  split
  · exact absurd (List.length_eq_zero.mp (by assumption)) h
  · split
    · exact ⟨_, by simp [rescaleDurs_length, durationsInit_length], rfl⟩
    · exact ⟨_, by simp [durationsInit_length], rfl⟩

theorem buildRanges_head_start (ds : List Int) (c : Int) (h : ds ≠ []) :
    ((buildRanges ds c).getD 0 (0, 0, 0)).1 = c := by
  cases ds with
  | nil => exact absurd rfl h
  | cons d rest => rfl

theorem evenSplit_sum (base rem : Int) (h0 : 0 ≤ rem) : ∀ n : Nat,
    (((List.range n).map fun (i : Nat) =>
        base + if (i : Int) < rem then 1 else 0).sum)
      = (n : Int) * base + min rem (n : Int) := by
  intro n
  induction n with
  | zero => simp [min_eq_right h0]
  | succ n ih =>
    rw [List.range_succ, List.map_append, List.sum_append, ih]
    simp only [List.map_cons, List.map_nil, List.sum_cons, List.sum_nil]
    by_cases hc : (n : Int) < rem
    · rw [if_pos hc, min_eq_right (le_of_lt hc), min_eq_right (by push_cast; omega)]
      push_cast
      ring
    · rw [if_neg hc, min_eq_left (by omega), min_eq_left (by push_cast; omega)]
      push_cast
      ring

theorem durationsInit_all_none (parsed : List (Option Int)) (td : Int)
    (h : ∀ x ∈ parsed, x = none) :
    durationsInit parsed td = (List.range parsed.length).map fun (i : Nat) =>
      td / (parsed.length : Int) + if (i : Int) < td % (parsed.length : Int) then 1 else 0 := by
  simp only [durationsInit]
  rw [if_pos]
  rw [List.filter_eq_self.mpr fun a ha => by simp [h a ha]]

theorem durationsInit_all_some (parsed : List (Option Int)) (td : Int)
    (hne : parsed ≠ []) (h : ∀ x ∈ parsed, x.isSome) :
    durationsInit parsed td = parsed.map fun d => d.getD 0 := by
  have hfil : (parsed.filter fun d => d.isNone).length = 0 := by
    have hf : (parsed.filter fun d => d.isNone) = [] := by
      apply List.filter_eq_nil_iff.mpr
      intro a ha
      have hs := h a ha
      cases a with
      | none => simp at hs
      | some v => simp
    rw [hf]
    rfl
  simp only [durationsInit]
  rw [if_neg (by rw [hfil]; intro hlen; exact hne (List.length_eq_zero.mp hlen.symm)),
    if_neg (by rw [hfil]; omega)]

theorem map_getD_eq_filterMap (l : List (Option Int)) (h : ∀ x ∈ l, x.isSome) :
    l.map (fun d => d.getD 0) = l.filterMap id := by
  induction l with
  | nil => rfl
  | cons x rest ih =>
    cases x with
    | none => simpa using h none (by simp)
    | some v =>
      simp only [List.map_cons, List.filterMap_cons, id, Option.getD_some]
      rw [ih fun y hy => h y (List.mem_cons_of_mem _ hy)]

theorem rangesFromParsed_exact (parsed : List (Option Int)) (td : Int)
    (hne : parsed ≠ [])
    (hsum : (durationsInit parsed td).sum = td)
    (hpos : ∀ d ∈ durationsInit parsed td, 1 ≤ d) :
    (((rangesFromParsed parsed td).map fun r => r.2.2).sum = td) ∧
    ((rangesFromParsed parsed td).getLastD (0, 0, 0)).2.1 = td := by
  have hlen0 : parsed.length ≠ 0 := fun h0 => hne (List.length_eq_zero.mp h0)
  have hdne : durationsInit parsed td ≠ [] := by
    intro h0
    exact hlen0 (by rw [← durationsInit_length parsed td, h0]; rfl)
  simp only [rangesFromParsed]
  rw [if_neg hlen0, if_neg (by rw [hsum]; simp)]
  constructor
  · rw [buildRanges_sum _ _ hpos, hsum]
  · rw [buildRanges_last _ _ hdne hpos, hsum]
    omega

/-! ## Claim theorems -/

/-- Claim C5: for every non-empty phase sequence and every integer
`total_days`, `compute_phase_day_ranges` returns exactly one range per phase;
the first range starts at day 1; consecutive ranges are contiguous
(`end_day + 1 = next start_day`); and every range has `duration ≥ 1` with
`end_day = start_day + duration - 1`. -/
theorem alloc_range_structure (phases : List Phase) (total_days : Int)
    (hne : phases ≠ []) :
    (compute_phase_day_ranges phases total_days).length = phases.length ∧
    ((compute_phase_day_ranges phases total_days).getD 0 (0, 0, 0)).1 = 1 ∧
    (∀ i : Nat, i + 1 < (compute_phase_day_ranges phases total_days).length →
      ((compute_phase_day_ranges phases total_days).getD i (0, 0, 0)).2.1 + 1 =
        ((compute_phase_day_ranges phases total_days).getD (i + 1) (0, 0, 0)).1) ∧
    (∀ r ∈ compute_phase_day_ranges phases total_days,
      1 ≤ r.2.2 ∧ r.2.1 = r.1 + r.2.2 - 1) := by
  have hlen : (parsedOf phases).length = phases.length := by simp [parsedOf]
  have hpne : parsedOf phases ≠ [] := by
    intro h0
    exact hne (List.map_eq_nil_iff.mp h0)
  obtain ⟨ds, hds, heq⟩ := rangesFromParsed_eq_buildRanges (parsedOf phases) total_days hpne
  have hdsne : ds ≠ [] := by
    intro h0
    rw [h0] at hds
    exact hpne (List.length_eq_zero.mp hds.symm)
  unfold compute_phase_day_ranges
  rw [heq]
  exact ⟨by rw [buildRanges_length, hds, hlen],
    buildRanges_head_start ds 1 hdsne,
    fun i hi => buildRanges_contig ds 1 i hi,
    buildRanges_mem ds 1⟩

/-- Witness for C5 at a concrete input. -/
theorem alloc_range_structure_witness :
    ([⟨"a", "2 Weeks", "g", ["t"], ["s"]⟩] : List Phase) ≠ [] ∧
    ((compute_phase_day_ranges [⟨"a", "2 Weeks", "g", ["t"], ["s"]⟩] 14).length =
        ([⟨"a", "2 Weeks", "g", ["t"], ["s"]⟩] : List Phase).length ∧
      ((compute_phase_day_ranges [⟨"a", "2 Weeks", "g", ["t"], ["s"]⟩] 14).getD 0 (0, 0, 0)).1 = 1 ∧
      (∀ i : Nat, i + 1 < (compute_phase_day_ranges [⟨"a", "2 Weeks", "g", ["t"], ["s"]⟩] 14).length →
        ((compute_phase_day_ranges [⟨"a", "2 Weeks", "g", ["t"], ["s"]⟩] 14).getD i (0, 0, 0)).2.1 + 1 =
          ((compute_phase_day_ranges [⟨"a", "2 Weeks", "g", ["t"], ["s"]⟩] 14).getD (i + 1) (0, 0, 0)).1) ∧
      (∀ r ∈ compute_phase_day_ranges [⟨"a", "2 Weeks", "g", ["t"], ["s"]⟩] 14,
        1 ≤ r.2.2 ∧ r.2.1 = r.1 + r.2.2 - 1)) :=
  ⟨by decide, alloc_range_structure [⟨"a", "2 Weeks", "g", ["t"], ["s"]⟩] 14 (by decide)⟩

/-- Claim C1 counterexample: the phase sequence `[{timeline: "0 days"}]` has
length 1 and `total_days = 5 ≥ 1`, yet the returned ranges have durations
summing to 1, not 5: the parsed hint is `0`, so `dur_sum = 0` and the step-5
rescale (guarded by `dur_sum > 0`) is skipped entirely, and the final
floor-at-1 turns the duration into 1. -/
theorem alloc_sum_invariant_cex :
    (1 : Int) ≤ 5 ∧
    ([⟨"a", "0 days", "g", [], []⟩] : List Phase).length = 1 ∧
    ((compute_phase_day_ranges [⟨"a", "0 days", "g", [], []⟩] 5).map
      fun r => r.2.2).sum ≠ 5 := by
  refine ⟨by decide, by decide, ?_⟩
  decide

/-- Claim C1 (amended): the allocator's durations sum exactly to `total_days`
(and hence the last `end_day` equals `total_days`) for every `n ≥ 1` and
`total_days ≥ n` whenever either no phase timeline parses (the even-split
case) or every timeline parses to a positive duration and the parsed
durations already sum to `total_days`.  In general the invariant can fail:
the rescale step is skipped when the parsed durations sum to `≤ 0`, and the
round-robin correction runs a fixed `|diff|` number of iterations whose
floor-at-1 clamping can leave the sum different from `total_days`. -/
theorem alloc_sum_invariant_amended (phases : List Phase) (total_days : Int)
    (hne : phases ≠ []) (hbudget : (phases.length : Int) ≤ total_days)
    (hcase : (∀ p ∈ phases, _parse_timeline_to_days p.timeline = none) ∨
      ((∀ p ∈ phases, ∃ v, _parse_timeline_to_days p.timeline = some v ∧ 1 ≤ v) ∧
        ((parsedOf phases).filterMap id).sum = total_days)) :
    (((compute_phase_day_ranges phases total_days).map fun r => r.2.2).sum = total_days) ∧
    ((compute_phase_day_ranges phases total_days).getLastD (0, 0, 0)).2.1 = total_days := by
  have hpne : parsedOf phases ≠ [] := fun h0 => hne (List.map_eq_nil_iff.mp h0)
  have hlen : (parsedOf phases).length = phases.length := by simp [parsedOf]
  have hn1 : 1 ≤ phases.length := by
    cases phases with
    | nil => exact absurd rfl hne
    | cons p ps => simp
  rcases hcase with hnone | ⟨hsome, hsum⟩
  · -- all-unknown even split
    have hmem : ∀ x ∈ parsedOf phases, x = none := by
      intro x hx
      obtain ⟨p, hp, rfl⟩ := List.mem_map.mp hx
      exact hnone p hp
    have hinit := durationsInit_all_none (parsedOf phases) total_days hmem
    have hnpos : (0 : Int) < ((parsedOf phases).length : Int) := by
      rw [hlen]
      exact_mod_cast hn1
    have hrem0 : (0 : Int) ≤ total_days % ((parsedOf phases).length : Int) :=
      Int.emod_nonneg total_days (by omega)
    have hremlt : total_days % ((parsedOf phases).length : Int) < ((parsedOf phases).length : Int) :=
      Int.emod_lt_of_pos total_days hnpos
    have hbase : (1 : Int) ≤ total_days / ((parsedOf phases).length : Int) := by
      rw [Int.le_ediv_iff_mul_le hnpos]
      rw [hlen]
      omega
    have hsum0 : (durationsInit (parsedOf phases) total_days).sum = total_days := by
      rw [hinit, evenSplit_sum _ _ hrem0,
        min_eq_left (le_of_lt hremlt), Int.ediv_add_emod total_days _]
    have hpos0 : ∀ d ∈ durationsInit (parsedOf phases) total_days, 1 ≤ d := by
      rw [hinit]
      intro d hd
      obtain ⟨i, _, rfl⟩ := List.mem_map.mp hd
      have : (0 : Int) ≤ if (i : Int) < total_days % ((parsedOf phases).length : Int) then 1 else 0 := by
        split <;> omega
      omega
    exact rangesFromParsed_exact (parsedOf phases) total_days hpne hsum0 hpos0
  · -- all-known exact fit
    have hmem : ∀ x ∈ parsedOf phases, x.isSome := by
      intro x hx
      obtain ⟨p, hp, rfl⟩ := List.mem_map.mp hx
      obtain ⟨v, hv, _⟩ := hsome p hp
      rw [hv]
      rfl
    have hinit := durationsInit_all_some (parsedOf phases) total_days hpne hmem
    have hsum0 : (durationsInit (parsedOf phases) total_days).sum = total_days := by
      rw [hinit, map_getD_eq_filterMap _ hmem, hsum]
    have hpos0 : ∀ d ∈ durationsInit (parsedOf phases) total_days, 1 ≤ d := by
      rw [hinit]
      intro d hd
      obtain ⟨x, hx, rfl⟩ := List.mem_map.mp hd
      obtain ⟨p, hp, rfl⟩ := List.mem_map.mp hx
      obtain ⟨v, hv, hv1⟩ := hsome p hp
      rw [hv]
      exact hv1
    exact rangesFromParsed_exact (parsedOf phases) total_days hpne hsum0 hpos0

/-- Witness for the amended C1 at a concrete input (two unparseable
timelines, budget 5). -/
theorem alloc_sum_invariant_amended_witness :
    (((compute_phase_day_ranges
        [⟨"a", "asap", "g", [], []⟩, ⟨"b", "soon", "g", [], []⟩] 5).map
          fun r => r.2.2).sum = 5) ∧
    ((compute_phase_day_ranges
        [⟨"a", "asap", "g", [], []⟩, ⟨"b", "soon", "g", [], []⟩] 5).getLastD
          (0, 0, 0)).2.1 = 5 :=
  alloc_sum_invariant_amended
    [⟨"a", "asap", "g", [], []⟩, ⟨"b", "soon", "g", [], []⟩] 5
    (by decide) (by decide) (Or.inl (by decide))

/-! ## Parser properties -/

theorem char_toNat_ofNat {n : Nat} (h : n.isValidChar) : (Char.ofNat n).toNat = n := by
  rw [Char.ofNat, dif_pos h]
  rfl

theorem toLower_idem (c : Char) : c.toLower.toLower = c.toLower := by
  by_cases h : c.toNat ≥ 65 ∧ c.toNat ≤ 90
  · have h1 : c.toLower = Char.ofNat (c.toNat + 32) := by
      simp only [Char.toLower]
      rw [if_pos h]
    have hv : (c.toNat + 32).isValidChar := Or.inl (by omega)
    rw [h1]
    simp only [Char.toLower]
    rw [if_neg (by rw [char_toNat_ofNat hv]; omega)]
  · have h1 : c.toLower = c := by
      simp only [Char.toLower]
      rw [if_neg h]
    rw [h1, h1]

/-- `str.lower()` restricted to the basic-latin handling of `Char.toLower`. -/
def lowerString (s : String) : String := String.mk (s.data.map Char.toLower)

theorem parse_lower_invariant (s : String) :
    _parse_timeline_to_days (lowerString s) = _parse_timeline_to_days s := by
  by_cases h : s = ""
  · subst h
    rfl
  · have hne : lowerString s ≠ "" := by
      intro h0
      apply h
      have hd : s.data.map Char.toLower = [] := by
        have hcongr := congrArg String.data h0
        simpa [lowerString] using hcongr
      have hdata : s.data = [] := List.map_eq_nil_iff.mp hd
      exact String.ext (show s.data = ("" : String).data from hdata)
    unfold _parse_timeline_to_days
    rw [if_neg h, if_neg hne]
    have htext : (lowerString s).data.map Char.toLower = s.data.map Char.toLower := by
      show (s.data.map Char.toLower).map Char.toLower = s.data.map Char.toLower
      rw [List.map_map]
      apply List.map_congr_left
      intro a _
      show a.toLower.toLower = a.toLower
      exact toLower_idem a
    rw [htext]

/-- Claim C7: on the five reference inputs the timeline parser returns
exactly 14, 60, 7, 3 and `none` (unknown); matching is case-insensitive
(lowercasing the input never changes the result, since the parser lowercases
first and `toLower` is idempotent); and by its `Option` type every
non-matching input yields `none` rather than an error. -/
theorem parser_reference_values :
    _parse_timeline_to_days "2 Weeks" = some 14 ∧
    _parse_timeline_to_days "Month 1-2" = some 60 ∧
    _parse_timeline_to_days "Week 1" = some 7 ∧
    _parse_timeline_to_days "3 Days" = some 3 ∧
    _parse_timeline_to_days "asap" = none ∧
    ∀ s : String, _parse_timeline_to_days (lowerString s) = _parse_timeline_to_days s :=
  ⟨by decide, by decide, by decide, by decide, by decide, parse_lower_invariant⟩

/-! ## The mixed known/unknown split (claim C2) -/

/-- Among the entries of `l` at positions `i, i+1, ...`: how many satisfy `p`
and sit at a position strictly below `extra`. -/
def countBelow (p : Option Int → Bool) : List (Option Int) → Nat → Int → Int
  | [], _, _ => 0
  | d :: rest, i, extra =>
      (if p d ∧ (i : Int) < extra then 1 else 0) + countBelow p rest (i + 1) extra

theorem countBelow_of_le (p : Option Int → Bool) (l : List (Option Int)) :
    ∀ (i : Nat) (extra : Int), extra ≤ (i : Int) → countBelow p l i extra = 0 := by
  induction l with
  | nil => intro i extra _; rfl
  | cons d rest ih =>
    intro i extra h
    have hneg : ¬(p d = true ∧ (i : Int) < extra) := by
      rintro ⟨-, hlt⟩
      omega
    simp only [countBelow]
    rw [if_neg hneg, ih (i + 1) extra (by push_cast; omega)]
    omega

theorem countBelow_true (l : List (Option Int)) : ∀ (i : Nat) (extra : Int),
    (i : Int) ≤ extra → extra ≤ (i : Int) + (l.length : Int) →
    countBelow (fun _ => true) l i extra = extra - (i : Int) := by
  induction l with
  | nil =>
    intro i extra h1 h2
    simp only [List.length_nil, Nat.cast_zero, add_zero] at h2
    simp only [countBelow]
    omega
  | cons d rest ih =>
    intro i extra h1 h2
    simp only [List.length_cons] at h2
    push_cast at h2
    by_cases hc : (i : Int) < extra
    · simp only [countBelow]
      rw [if_pos (show True ∧ (i : Int) < extra from ⟨trivial, hc⟩),
        ih (i + 1) extra (by push_cast; omega) (by push_cast; omega)]
      push_cast
      omega
    · simp only [countBelow]
      rw [if_neg (by rintro ⟨-, hlt⟩; omega),
        countBelow_of_le _ _ (i + 1) extra (by push_cast; omega)]
      omega

theorem mixDurs_sum_countBelow (per extra : Int) (l : List (Option Int)) : ∀ i : Nat,
    (((mixDurs per extra l i).zip l).filterMap
        fun pr => if pr.2.isNone then some pr.1 else none).sum
      + countBelow (fun d => d.isSome) l i extra
    = ((l.filter fun d => d.isNone).length : Int) * per
      + countBelow (fun _ => true) l i extra := by
  induction l with
  | nil => intro i; simp [countBelow]
  | cons d rest ih =>
    intro i
    have hrec := ih (i + 1)
    cases d with
    | some v =>
      have h1 : mixDurs per extra (some v :: rest) i = v :: mixDurs per extra rest (i + 1) := rfl
      have h2 : countBelow (fun d => d.isSome) (some v :: rest) i extra =
          (if (i : Int) < extra then 1 else 0) +
            countBelow (fun d => d.isSome) rest (i + 1) extra := by
        simp only [countBelow, Option.isSome_some, true_and]
      have h3 : countBelow (fun _ => true) (some v :: rest) i extra =
          (if (i : Int) < extra then 1 else 0) +
            countBelow (fun _ => true) rest (i + 1) extra := by
        simp only [countBelow, true_and]
      rw [h1, h2, h3]
      simp only [List.zip_cons_cons, List.filterMap_cons, Option.isNone_some]
      simp only [Bool.false_eq_true, if_false]
      simp only [List.filter_cons, Option.isNone_some, Bool.false_eq_true, if_false]
      linarith [hrec]
    | none =>
      have h1 : mixDurs per extra (none :: rest) i =
          (per + if (i : Int) < extra then 1 else 0) :: mixDurs per extra rest (i + 1) := rfl
      have h2 : countBelow (fun d => d.isSome) (none :: rest) i extra =
          countBelow (fun d => d.isSome) rest (i + 1) extra := by
        simp only [countBelow, Option.isSome_none, Bool.false_eq_true, false_and, if_false]
        omega
      have h3 : countBelow (fun _ => true) (none :: rest) i extra =
          (if (i : Int) < extra then 1 else 0) +
            countBelow (fun _ => true) rest (i + 1) extra := by
        simp only [countBelow, true_and]
      rw [h1, h2, h3]
      simp only [List.zip_cons_cons, List.filterMap_cons, Option.isNone_none, if_true,
        List.sum_cons, List.filter_cons, List.length_cons]
      push_cast
      by_cases hc : (i : Int) < extra
      · rw [if_pos hc]
        linarith [hrec]
      · rw [if_neg hc]
        linarith [hrec]

theorem mixDurs_pairwise (per extra : Int) (hper : 1 ≤ per)
    (l : List (Option Int)) : ∀ i : Nat,
    ∀ pr ∈ (mixDurs per extra l i).zip l,
      (∀ v, pr.2 = some v → pr.1 = v) ∧ (pr.2 = none → 1 ≤ pr.1) := by
  induction l with
  | nil => intro i pr hpr; simp [mixDurs] at hpr
  | cons d rest ih =>
    intro i pr hpr
    cases d with
    | some v =>
      have h1 : mixDurs per extra (some v :: rest) i = v :: mixDurs per extra rest (i + 1) := rfl
      rw [h1, List.zip_cons_cons, List.mem_cons] at hpr
      rcases hpr with rfl | hpr
      · constructor
        · intro w hw
          simpa using hw
        · intro hcon
          simp at hcon
      · exact ih (i + 1) pr hpr
    | none =>
      have h1 : mixDurs per extra (none :: rest) i =
          (per + if (i : Int) < extra then 1 else 0) :: mixDurs per extra rest (i + 1) := rfl
      rw [h1, List.zip_cons_cons, List.mem_cons] at hpr
      rcases hpr with rfl | hpr
      · constructor
        · intro w hw
          simp at hw
        · intro _
          have hite : (0 : Int) ≤ if (i : Int) < extra then 1 else 0 := by
            split <;> omega
          show 1 ≤ per + if (i : Int) < extra then 1 else 0
          omega
      · exact ih (i + 1) pr hpr

theorem durationsInit_mixed (parsed : List (Option Int)) (td : Int)
    (hk : 0 < (parsed.filter fun d => d.isNone).length)
    (hn : (parsed.filter fun d => d.isNone).length < parsed.length) :
    durationsInit parsed td =
      mixDurs
        (max (td - (parsed.filterMap id).sum)
            (((parsed.filter fun d => d.isNone).length : Nat) : Int) /
          (((parsed.filter fun d => d.isNone).length : Nat) : Int))
        (max (td - (parsed.filterMap id).sum)
            (((parsed.filter fun d => d.isNone).length : Nat) : Int) %
          (((parsed.filter fun d => d.isNone).length : Nat) : Int))
        parsed 0 := by
  simp only [durationsInit]
  rw [if_neg (by omega), if_pos hk]

/-- Claim C2 counterexample: with phases `["1 Week", "asap", "asap"]` and
`total_days = 10` the reserve is `leftover = max(10 - 7, 2) = 3`, but the
pre-rescale durations are `[7, 1, 1]`: the one extra day (`3 mod 2 = 1`) is
awarded by position in the full phase list (`i < extra`), and position 0
holds a known phase, so no unknown phase receives it and the unknown
durations sum to 2, not `leftover = 3`. -/
theorem mixed_split_cex :
    durationsInit (parsedOf [⟨"a", "1 Week", "g", [], []⟩, ⟨"b", "asap", "g", [], []⟩,
      ⟨"c", "asap", "g", [], []⟩]) 10 = [7, 1, 1] ∧
    max (10 - 7 : Int) 2 = 3 ∧ (1 + 1 : Int) ≠ 3 :=
  ⟨by decide, by decide, by decide⟩

/-- Claim C2 (amended): in the mixed case the allocator reserves
`leftover = max(total_days - known_total, count_unknown)` days; each unknown
phase gets `leftover / count_unknown` days plus one extra day exactly when its
index in the FULL phase list is below `leftover mod count_unknown`.  Hence,
before any rescaling, every unknown phase's duration is ≥ 1 and known phases
keep their parsed durations, but the unknown durations sum to `leftover`
minus the number of KNOWN phases occupying list positions below
`leftover mod count_unknown` (not necessarily to `leftover`). -/
theorem mixed_split_amended (phases : List Phase) (total_days : Int)
    (k : Nat) (known_total leftover per_unknown extra : Int)
    (hk : k = ((parsedOf phases).filter fun d => d.isNone).length)
    (hkt : known_total = ((parsedOf phases).filterMap id).sum)
    (hl : leftover = max (total_days - known_total) (k : Int))
    (hper : per_unknown = leftover / (k : Int))
    (hex : extra = leftover % (k : Int))
    (hkpos : 0 < k) (hkn : k < phases.length) :
    ((((durationsInit (parsedOf phases) total_days).zip (parsedOf phases)).filterMap
        fun pr => if pr.2.isNone then some pr.1 else none).sum
      = leftover - countBelow (fun d => d.isSome) (parsedOf phases) 0 extra) ∧
    (∀ pr ∈ (durationsInit (parsedOf phases) total_days).zip (parsedOf phases),
      (∀ v, pr.2 = some v → pr.1 = v) ∧ (pr.2 = none → 1 ≤ pr.1)) := by
  have hplen : (parsedOf phases).length = phases.length := by simp [parsedOf]
  have hkZ : (0 : Int) < (k : Int) := by exact_mod_cast hkpos
  have hlk : (k : Int) ≤ leftover := by rw [hl]; exact le_max_right _ _
  have hper1 : 1 ≤ per_unknown := by
    rw [hper, Int.le_ediv_iff_mul_le hkZ]
    omega
  have hex0 : 0 ≤ extra := by
    rw [hex]
    exact Int.emod_nonneg leftover (by omega)
  have hexlt : extra < (k : Int) := by
    rw [hex]
    exact Int.emod_lt_of_pos leftover hkZ
  have hdm : (k : Int) * per_unknown + extra = leftover := by
    rw [hper, hex]
    exact Int.ediv_add_emod leftover (k : Int)
  have hinit : durationsInit (parsedOf phases) total_days =
      mixDurs per_unknown extra (parsedOf phases) 0 := by
    rw [durationsInit_mixed (parsedOf phases) total_days (by omega) (by omega)]
    rw [← hk, ← hkt, ← hl, ← hper, ← hex]
  constructor
  · rw [hinit]
    have hsum := mixDurs_sum_countBelow per_unknown extra (parsedOf phases) 0
    have htrue := countBelow_true (parsedOf phases) 0 extra (by omega)
      (by rw [hplen]; push_cast; omega)
    rw [htrue] at hsum
    have hkcount : (((parsedOf phases).filter fun d => d.isNone).length : Int) = (k : Int) := by
      rw [hk]
    rw [hkcount] at hsum
    omega
  · rw [hinit]
    exact mixDurs_pairwise per_unknown extra hper1 (parsedOf phases) 0

/-- Witness for the amended C2 at a concrete input:
phases `["asap", "1 Week", "asap"]`, `total_days = 12`, so `k = 2`,
`known_total = 7`, `leftover = 5`, `per_unknown = 2`, `extra = 1`. -/
theorem mixed_split_amended_witness :
    ((((durationsInit (parsedOf [⟨"a", "asap", "g", [], []⟩, ⟨"b", "1 Week", "g", [], []⟩,
          ⟨"c", "asap", "g", [], []⟩]) 12).zip
        (parsedOf [⟨"a", "asap", "g", [], []⟩, ⟨"b", "1 Week", "g", [], []⟩,
          ⟨"c", "asap", "g", [], []⟩])).filterMap
        fun pr => if pr.2.isNone then some pr.1 else none).sum
      = 5 - countBelow (fun d => d.isSome)
          (parsedOf [⟨"a", "asap", "g", [], []⟩, ⟨"b", "1 Week", "g", [], []⟩,
            ⟨"c", "asap", "g", [], []⟩]) 0 1) ∧
    (∀ pr ∈ (durationsInit (parsedOf [⟨"a", "asap", "g", [], []⟩, ⟨"b", "1 Week", "g", [], []⟩,
          ⟨"c", "asap", "g", [], []⟩]) 12).zip
        (parsedOf [⟨"a", "asap", "g", [], []⟩, ⟨"b", "1 Week", "g", [], []⟩,
          ⟨"c", "asap", "g", [], []⟩]),
      (∀ v, pr.2 = some v → pr.1 = v) ∧ (pr.2 = none → 1 ≤ pr.1)) :=
  mixed_split_amended
    [⟨"a", "asap", "g", [], []⟩, ⟨"b", "1 Week", "g", [], []⟩, ⟨"c", "asap", "g", [], []⟩]
    12 2 7 5 2 1 (by decide) (by decide) (by decide) (by decide) (by decide)
    (by decide) (by decide)

/-! ## Orchestrator claims -/

theorem getD_mem_of_lt {α : Type} (l : List α) (n : Nat) (dfl : α) (h : n < l.length) :
    l.getD n dfl ∈ l := by
  rw [List.getD_eq_getElem?_getD, List.getElem?_eq_getElem h]
  exact List.getElem_mem h

theorem compute_ranges_wf (phases : List Phase) (td : Int) :
    ∀ r ∈ compute_phase_day_ranges phases td, 1 ≤ r.2.2 ∧ r.2.1 = r.1 + r.2.2 - 1 := by
  unfold compute_phase_day_ranges
  by_cases h : parsedOf phases = []
  · rw [h]
    intro r hr
    simp [rangesFromParsed] at hr
  · obtain ⟨ds, -, heq⟩ := rangesFromParsed_eq_buildRanges _ td h
    rw [heq]
    exact buildRanges_mem ds 1

theorem compute_ranges_length (phases : List Phase) (td : Int) :
    (compute_phase_day_ranges phases td).length = phases.length := by
  unfold compute_phase_day_ranges
  rw [rangesFromParsed_length]
  simp [parsedOf]

/-- Claim C3: whenever the external generation step fails — the call raises
(an exception that propagates out of `generate_daily_tasks_from_roadmap` and
is caught in `approve_roadmap`) or returns output with no usable task list
(handled inside the service) — the schedule-building operation recovers by
running the per-phase fallback distributor on the computed ranges, in phase
order; being a total function, `approve_roadmap_schedule` never surfaces an
error to its caller. -/
theorem generator_failure_fallback (phases : List Phase) (total_days : Int)
    (outcome : GenOutcome)
    (h : outcome = GenOutcome.raised ∨ outcome = GenOutcome.returned none) :
    approve_roadmap_schedule phases total_days outcome =
      (_fallback_distribute_tasks phases total_days
        (some (compute_phase_day_ranges phases total_days))).map DailyTask.toItem := by
  rcases h with rfl | rfl <;> rfl

/-- Witness for C3 at a concrete input (the generator raises). -/
theorem generator_failure_fallback_witness :
    approve_roadmap_schedule [⟨"a", "1 Week", "g", ["t"], []⟩] 7 GenOutcome.raised =
      (_fallback_distribute_tasks [⟨"a", "1 Week", "g", ["t"], []⟩] 7
        (some (compute_phase_day_ranges [⟨"a", "1 Week", "g", ["t"], []⟩] 7))).map
        DailyTask.toItem :=
  generator_failure_fallback [⟨"a", "1 Week", "g", ["t"], []⟩] 7 GenOutcome.raised
    (Or.inl rfl)

/-- Claim C4 counterexample: with one phase (`n = 1`, range `(1, 7, 7)`) and a
generator item whose `phase_index` is 5 (outside `[0, 1)`) and whose `day` is
42 (outside every range), the schedule builder returns the item verbatim: it
is neither dropped from the output nor defaulted/clamped in any field. -/
theorem clamp_out_of_range_cex :
    generate_daily_tasks_from_roadmap [⟨"a", "1 Week", "g", ["t"], []⟩] 7
        (GenOutcome.returned (some [⟨some 42, some 5, some "x", some "y", some 3⟩])) =
      Except.ok [⟨some 42, some 5, some "x", some "y", some 3⟩] ∧
    (compute_phase_day_ranges [⟨"a", "1 Week", "g", ["t"], []⟩] 7).length = 1 ∧
    ¬ ((5 : Int) < 1) :=
  ⟨by rfl, by decide, by decide⟩

/-- Claim C4 (amended): the schedule builder maps `clampTask` over the
generator's items.  For an item whose `phase_index` lies in `[0, n)` the item's
`day` is clamped into the phase's `[start_day, end_day]` (to the nearest
boundary when out of range); an item whose `phase_index` lies outside `[0, n)`
is passed through entirely unchanged — kept in the output, not dropped and not
defaulted — and no case crashes (the builder is total). -/
theorem clamp_items_amended (phases : List Phase) (total_days : Int)
    (items : List TaskItem) (t : TaskItem) (pi : Int)
    (hpi : t.phase_index = some pi) :
    (generate_daily_tasks_from_roadmap phases total_days (GenOutcome.returned (some items)) =
      Except.ok (items.map (clampTask (compute_phase_day_ranges phases total_days)))) ∧
    (∀ d : Int, t.day = some d → 0 ≤ pi →
      pi < ((compute_phase_day_ranges phases total_days).length : Int) →
      (clampTask (compute_phase_day_ranges phases total_days) t).day =
        some (max ((compute_phase_day_ranges phases total_days).getD pi.toNat (0, 0, 0)).1
          (min d ((compute_phase_day_ranges phases total_days).getD pi.toNat (0, 0, 0)).2.1)) ∧
      ((compute_phase_day_ranges phases total_days).getD pi.toNat (0, 0, 0)).1 ≤
        (max ((compute_phase_day_ranges phases total_days).getD pi.toNat (0, 0, 0)).1
          (min d ((compute_phase_day_ranges phases total_days).getD pi.toNat (0, 0, 0)).2.1)) ∧
      (max ((compute_phase_day_ranges phases total_days).getD pi.toNat (0, 0, 0)).1
          (min d ((compute_phase_day_ranges phases total_days).getD pi.toNat (0, 0, 0)).2.1)) ≤
        ((compute_phase_day_ranges phases total_days).getD pi.toNat (0, 0, 0)).2.1) ∧
    (¬ (0 ≤ pi ∧ pi < ((compute_phase_day_ranges phases total_days).length : Int)) →
      clampTask (compute_phase_day_ranges phases total_days) t = t) := by
  refine ⟨rfl, ?_, ?_⟩
  · intro d hd h0 hlt
    have hmem : (compute_phase_day_ranges phases total_days).getD pi.toNat (0, 0, 0) ∈
        compute_phase_day_ranges phases total_days := by
      apply getD_mem_of_lt
      omega
    have hwf := compute_ranges_wf phases total_days _ hmem
    have hse : ((compute_phase_day_ranges phases total_days).getD pi.toNat (0, 0, 0)).1 ≤
        ((compute_phase_day_ranges phases total_days).getD pi.toNat (0, 0, 0)).2.1 := by
      omega
    refine ⟨?_, le_max_left _ _, max_le hse (min_le_right _ _)⟩
    unfold clampTask
    rw [hpi]
    simp only [Option.getD_some]
    rw [if_pos ⟨h0, hlt⟩, hd]
    rfl
  · intro hout
    unfold clampTask
    rw [hpi]
    simp only [Option.getD_some]
    rw [if_neg hout]

/-- Witness for the amended C4 at a concrete input: one phase, item with
`phase_index = 0` and `day = 42`, clamped to the range `(1, 7, 7)`. -/
theorem clamp_items_amended_witness :
    (generate_daily_tasks_from_roadmap [⟨"a", "1 Week", "g", ["t"], []⟩] 7
        (GenOutcome.returned (some [⟨some 42, some 0, some "x", some "y", some 3⟩])) =
      Except.ok ([⟨some 42, some 0, some "x", some "y", some 3⟩].map
        (clampTask (compute_phase_day_ranges [⟨"a", "1 Week", "g", ["t"], []⟩] 7)))) ∧
    (∀ d : Int, (⟨some 42, some 0, some "x", some "y", some 3⟩ : TaskItem).day = some d →
      0 ≤ (0 : Int) →
      (0 : Int) < ((compute_phase_day_ranges [⟨"a", "1 Week", "g", ["t"], []⟩] 7).length : Int) →
      (clampTask (compute_phase_day_ranges [⟨"a", "1 Week", "g", ["t"], []⟩] 7)
          ⟨some 42, some 0, some "x", some "y", some 3⟩).day =
        some (max ((compute_phase_day_ranges [⟨"a", "1 Week", "g", ["t"], []⟩] 7).getD
            (0 : Int).toNat (0, 0, 0)).1
          (min d ((compute_phase_day_ranges [⟨"a", "1 Week", "g", ["t"], []⟩] 7).getD
            (0 : Int).toNat (0, 0, 0)).2.1)) ∧
      ((compute_phase_day_ranges [⟨"a", "1 Week", "g", ["t"], []⟩] 7).getD
          (0 : Int).toNat (0, 0, 0)).1 ≤
        (max ((compute_phase_day_ranges [⟨"a", "1 Week", "g", ["t"], []⟩] 7).getD
            (0 : Int).toNat (0, 0, 0)).1
          (min d ((compute_phase_day_ranges [⟨"a", "1 Week", "g", ["t"], []⟩] 7).getD
            (0 : Int).toNat (0, 0, 0)).2.1)) ∧
      (max ((compute_phase_day_ranges [⟨"a", "1 Week", "g", ["t"], []⟩] 7).getD
            (0 : Int).toNat (0, 0, 0)).1
          (min d ((compute_phase_day_ranges [⟨"a", "1 Week", "g", ["t"], []⟩] 7).getD
            (0 : Int).toNat (0, 0, 0)).2.1)) ≤
        ((compute_phase_day_ranges [⟨"a", "1 Week", "g", ["t"], []⟩] 7).getD
          (0 : Int).toNat (0, 0, 0)).2.1) ∧
    (¬ ((0 : Int) ≤ 0 ∧
        (0 : Int) < ((compute_phase_day_ranges [⟨"a", "1 Week", "g", ["t"], []⟩] 7).length : Int)) →
      clampTask (compute_phase_day_ranges [⟨"a", "1 Week", "g", ["t"], []⟩] 7)
          ⟨some 42, some 0, some "x", some "y", some 3⟩ =
        ⟨some 42, some 0, some "x", some "y", some 3⟩) :=
  clamp_items_amended [⟨"a", "1 Week", "g", ["t"], []⟩] 7
    [⟨some 42, some 0, some "x", some "y", some 3⟩]
    ⟨some 42, some 0, some "x", some "y", some 3⟩ 0 rfl

/-- Claim C10: in the validation loop an item with no `phase_index` key is
treated as phase 0 (`t.get("phase_index", 0)`): its day is clamped into phase
0's range, and with no `day` key it receives phase 0's `start_day`.  An item
with a valid `phase_index` but no `day` key gets that phase's `start_day`
(`t.get("day", s)` followed by the clamp).  Such items are kept: the builder
returns the clamped items, one output item per input item. -/
theorem missing_keys_defaulted (phases : List Phase) (total_days : Int)
    (items : List TaskItem) (t : TaskItem) (hne : phases ≠ []) :
    (t.phase_index = none →
      clampTask (compute_phase_day_ranges phases total_days) t =
        { t with day := some (max
            ((compute_phase_day_ranges phases total_days).getD 0 (0, 0, 0)).1
            (min (t.day.getD ((compute_phase_day_ranges phases total_days).getD 0 (0, 0, 0)).1)
              ((compute_phase_day_ranges phases total_days).getD 0 (0, 0, 0)).2.1)) }) ∧
    (t.phase_index = none → t.day = none →
      (clampTask (compute_phase_day_ranges phases total_days) t).day =
        some ((compute_phase_day_ranges phases total_days).getD 0 (0, 0, 0)).1) ∧
    (∀ pi : Int, t.phase_index = some pi → 0 ≤ pi →
      pi < ((compute_phase_day_ranges phases total_days).length : Int) → t.day = none →
      (clampTask (compute_phase_day_ranges phases total_days) t).day =
        some ((compute_phase_day_ranges phases total_days).getD pi.toNat (0, 0, 0)).1) ∧
    (generate_daily_tasks_from_roadmap phases total_days (GenOutcome.returned (some items)) =
        Except.ok (items.map (clampTask (compute_phase_day_ranges phases total_days))) ∧
      (items.map (clampTask (compute_phase_day_ranges phases total_days))).length =
        items.length) := by
  have hlen : (compute_phase_day_ranges phases total_days).length = phases.length :=
    compute_ranges_length phases total_days
  have hnpos : 0 < phases.length := by
    cases phases with
    | nil => exact absurd rfl hne
    | cons a l => simp
  have hlen0 : 0 < (compute_phase_day_ranges phases total_days).length := by omega
  have hclamp0 : t.phase_index = none →
      clampTask (compute_phase_day_ranges phases total_days) t =
        { t with day := some (max
            ((compute_phase_day_ranges phases total_days).getD 0 (0, 0, 0)).1
            (min (t.day.getD ((compute_phase_day_ranges phases total_days).getD 0 (0, 0, 0)).1)
              ((compute_phase_day_ranges phases total_days).getD 0 (0, 0, 0)).2.1)) } := by
    intro hnone
    unfold clampTask
    rw [hnone]
    simp only [Option.getD_none]
    rw [if_pos ⟨le_refl (0 : Int), by exact_mod_cast hlen0⟩]
    rfl
  refine ⟨hclamp0, ?_, ?_, rfl, List.length_map _ _⟩
  · intro hnone hday
    have hwf := compute_ranges_wf phases total_days _
      (getD_mem_of_lt (compute_phase_day_ranges phases total_days) 0 (0, 0, 0) hlen0)
    rw [hclamp0 hnone, hday]
    simp only [Option.getD_none]
    congr 1
    omega
  · intro pi hpi h0 hlt hday
    have htn : pi.toNat < (compute_phase_day_ranges phases total_days).length := by omega
    have hwf := compute_ranges_wf phases total_days _
      (getD_mem_of_lt (compute_phase_day_ranges phases total_days) pi.toNat (0, 0, 0) htn)
    unfold clampTask
    rw [hpi, hday]
    simp only [Option.getD_some]
    rw [if_pos ⟨h0, hlt⟩]
    simp only [Option.getD_none]
    congr 1
    omega

/-- Witness for C10 at a concrete input: an item with neither key, against one
"1 Week" phase, gets day = phase 0's start_day. -/
theorem missing_keys_defaulted_witness :
    (clampTask (compute_phase_day_ranges [⟨"a", "1 Week", "g", ["t"], []⟩] 7)
        ⟨none, none, none, none, none⟩).day =
      some ((compute_phase_day_ranges [⟨"a", "1 Week", "g", ["t"], []⟩] 7).getD 0 (0, 0, 0)).1 :=
  (missing_keys_defaulted [⟨"a", "1 Week", "g", ["t"], []⟩] 7 []
    ⟨none, none, none, none, none⟩ (by decide)).2.1 rfl rfl

/-! ## Fallback distributor properties -/

theorem innerLoop_le (task : String) (target : Int) :
    ∀ (l : List (String × Int)) (acc : List (String × String × Int)),
      (acc.length : Int) < target →
      ((innerLoop task target l acc).length : Int) ≤ target := by
  intro l
  induction l with
  | nil => intro acc h; exact le_of_lt h
  | cons a rest ih =>
    intro acc h
    obtain ⟨label, prio⟩ := a
    simp only [innerLoop]
    by_cases hc : target ≤ (((acc ++ [(label ++ task, task, prio)]).length : Nat) : Int)
    · rw [if_pos hc]
      simp only [List.length_append, List.length_cons, List.length_nil]
      push_cast
      omega
    · rw [if_neg hc]
      exact ih _ (lt_of_not_le hc)

theorem outerLoop_le (target : Int) :
    ∀ (ts : List String) (acc : List (String × String × Int)),
      (acc.length : Int) < target →
      ((outerLoop target ts acc).length : Int) ≤ target := by
  intro ts
  induction ts with
  | nil => intro acc h; exact le_of_lt h
  | cons t rest ih =>
    intro acc h
    simp only [outerLoop]
    by_cases hc : target ≤ ((innerLoop t target fallbackActions acc).length : Int)
    · rw [if_pos hc]
      exact innerLoop_le t target fallbackActions acc h
    · rw [if_neg hc]
      exact ih _ (lt_of_not_le hc)

theorem continueFill_length (tasks : List String) (target : Int) :
    ∀ (fuel idx : Nat) (acc : List (String × String × Int)),
      (target * 2 + 1 - (idx : Int)).toNat ≤ fuel →
      tasks ≠ [] → (acc.length : Int) ≤ target → (idx : Int) ≤ target + acc.length →
      ((continueFill tasks target idx acc).length : Int) = target := by
  intro fuel
  induction fuel with
  | zero =>
    intro idx acc hf hne hle hidx
    exfalso
    omega
  | succ fuel ih =>
    intro idx acc hf hne hle hidx
    by_cases hg : (acc.length : Int) < target
    · rw [continueFill]
      rw [if_pos ⟨hg, hne⟩]
      by_cases hb : target * 2 < (idx : Int) + 1
      · exfalso
        omega
      · rw [if_neg hb]
        have hlen : ((acc ++ [("Continue: " ++ tasks.getD (idx % tasks.length) "",
            tasks.getD (idx % tasks.length) "", (3 : Int))]).length : Int)
            = (acc.length : Int) + 1 := by
          simp only [List.length_append, List.length_cons, List.length_nil]
          push_cast
          omega
        apply ih (idx + 1)
        · omega
        · exact hne
        · rw [hlen]
          omega
        · rw [hlen]
          push_cast
          omega
    · rw [continueFill]
      rw [if_neg (by rintro ⟨hlt, -⟩; omega)]
      omega

theorem expandTasks_length (tasks : List String) (target : Int)
    (hne : tasks ≠ []) (ht : (tasks.length : Int) ≤ target) :
    ((expandTasks tasks target).length : Int) = target := by
  unfold expandTasks
  by_cases hc : (tasks.length : Int) < target
  · rw [if_pos hc]
    have hpos : (0 : Int) < target := by
      have : (0 : Int) ≤ (tasks.length : Int) := by positivity
      omega
    have houter : ((outerLoop target tasks []).length : Int) ≤ target :=
      outerLoop_le target tasks [] (by simpa using hpos)
    exact continueFill_length tasks target (target * 2 + 2).toNat 0 _
      (by omega) hne houter (by positivity)
  · rw [if_neg hc]
    have : target = (tasks.length : Int) := by omega
    rw [List.length_map, List.enum_length, this]

/-- Claim C6: for every phase with a non-empty authored task list and an
allotted range `(s, e, d)` with `d ≥ 1` and `e = s + d - 1`, the fallback
distributor produces exactly `target_count = max(d * 2, len(tasks))`
day-stamped tasks (expanding short lists with the `Study:`/`Practice:`/
`Review:` prefixes at priorities 5/4/3 and then `Continue:` at priority 3),
and every produced task's day lies in `[s, e]`.  In particular 2 authored
tasks with duration 5 yield `max(10, 2) = 10` tasks. -/
theorem fallback_task_count (phase_ranges : List (Int × Int × Int)) (total_days : Int)
    (phase_idx : Nat) (phase : Phase) (s e d : Int)
    (hne : phase.tasks ≠ [])
    (hr : phase_ranges.getD phase_idx (1, total_days, total_days) = (s, e, d))
    (hd : 1 ≤ d) (he : e = s + d - 1) :
    ((distributePhase phase_ranges total_days phase_idx phase).length : Int)
      = max (d * 2) (phase.tasks.length : Int) ∧
    ∀ t ∈ distributePhase phase_ranges total_days phase_idx phase,
      s ≤ t.day ∧ t.day ≤ e := by
  unfold distributePhase
  rw [if_neg hne, hr]
  constructor
  · rw [List.length_map, List.enum_length]
    exact expandTasks_length _ _ hne (le_max_right _ _)
  · intro t ht
    obtain ⟨p, hp, rfl⟩ := List.mem_map.mp ht
    have hse : s ≤ e := by omega
    exact ⟨le_max_left _ _, max_le hse (min_le_right _ _)⟩

/-- Witness for C6: 2 authored tasks, range `(1, 5, 5)`. -/
theorem fallback_task_count_witness :
    (((distributePhase [((1 : Int), 5, 5)] 5 0 ⟨"a", "", "g", ["t1", "t2"], []⟩).length : Int)
      = max (5 * 2) ((⟨"a", "", "g", ["t1", "t2"], []⟩ : Phase).tasks.length : Int)) ∧
    ∀ t ∈ distributePhase [((1 : Int), 5, 5)] 5 0 ⟨"a", "", "g", ["t1", "t2"], []⟩,
      (1 : Int) ≤ t.day ∧ t.day ≤ 5 :=
  fallback_task_count [((1 : Int), 5, 5)] 5 0 ⟨"a", "", "g", ["t1", "t2"], []⟩ 1 5 5
    (by decide) (by decide) (by decide) (by decide)

theorem distributePhase_mem_index (rs : List (Int × Int × Int)) (td : Int)
    (i : Nat) (p : Phase) :
    ∀ t ∈ distributePhase rs td i p, t.phase_index = i ∧ p.tasks ≠ [] := by
  unfold distributePhase
  by_cases h : p.tasks = []
  · rw [if_pos h]
    intro t ht
    simp at ht
  · rw [if_neg h]
    intro t ht
    obtain ⟨q, hq, rfl⟩ := List.mem_map.mp ht
    exact ⟨rfl, h⟩

theorem fallbackLoop_mem (rs : List (Int × Int × Int)) (td : Int) :
    ∀ (l : List Phase) (i0 : Nat) (t : DailyTask),
      t ∈ fallbackLoop rs td i0 l →
      ∃ j, j < l.length ∧ t.phase_index = i0 + j ∧
        (l.getD j ⟨"", "", "", [], []⟩).tasks ≠ [] := by
  intro l
  induction l with
  | nil => intro i0 t ht; simp [fallbackLoop] at ht
  | cons p rest ih =>
    intro i0 t ht
    rw [fallbackLoop, List.mem_append] at ht
    rcases ht with ht | ht
    · obtain ⟨hidx, hne⟩ := distributePhase_mem_index rs td i0 p t ht
      exact ⟨0, by simp, by omega, by simpa using hne⟩
    · obtain ⟨j, hj, hidx, hne⟩ := ih (i0 + 1) t ht
      exact ⟨j + 1, by simp; omega, by omega, by simpa using hne⟩

/-- Claim C9: in the fallback distributor a phase whose authored task list is
empty is skipped entirely and contributes no daily task (no output task
carries its phase index), so a phase's whole day range — which always has
duration ≥ 1 — can be left without any task and the result can cover fewer
phases than the input; concretely, a single phase with no tasks yields an
empty schedule. -/
theorem empty_phase_skipped (phases : List Phase) (total_days : Int)
    (ro : Option (List (Int × Int × Int))) (i : Nat)
    (_hi : i < phases.length)
    (hempty : (phases.getD i ⟨"", "", "", [], []⟩).tasks = []) :
    (∀ t ∈ _fallback_distribute_tasks phases total_days ro, t.phase_index ≠ i) ∧
    _fallback_distribute_tasks [⟨"a", "asap", "g", [], []⟩] 3 none = [] := by
  constructor
  · intro t ht hidx
    unfold _fallback_distribute_tasks at ht
    by_cases hnil : phases = []
    · rw [if_pos hnil] at ht
      simp at ht
    · rw [if_neg hnil] at ht
      obtain ⟨j, hj, hji, hne⟩ := fallbackLoop_mem _ total_days phases 0 t ht
      have : j = i := by omega
      rw [this] at hne
      exact hne hempty
  · decide

/-- Witness for C9: phases `[no-tasks, one-task]`, so no output task carries
phase index 0. -/
theorem empty_phase_skipped_witness :
    (∀ t ∈ _fallback_distribute_tasks
        [⟨"a", "1 Week", "g", [], []⟩, ⟨"b", "1 Week", "g", ["t"], []⟩] 14 none,
      t.phase_index ≠ 0) ∧
    _fallback_distribute_tasks [⟨"a", "asap", "g", [], []⟩] 3 none = [] :=
  empty_phase_skipped [⟨"a", "1 Week", "g", [], []⟩, ⟨"b", "1 Week", "g", ["t"], []⟩]
    14 none 0 (by decide) (by decide)

/-! ## Frame property (claim C8) -/

theorem foldl_append_pair {α β γ : Type} (g : α → List β) (st : γ) :
    ∀ (l : List α) (init : List β),
      l.foldl (fun acc p => (acc.1, acc.2 ++ g p)) (st, init) =
        (st, init ++ l.flatMap g) := by
  intro l
  induction l with
  | nil => intro init; simp
  | cons a rest ih =>
    intro init
    rw [List.foldl_cons, ih (init ++ g a)]
    simp [List.flatMap_cons]

theorem flatMap_singleton_map {α β : Type} (h : α → β) (l : List α) :
    l.flatMap (fun p => [h p]) = l.map h := by
  induction l with
  | nil => rfl
  | cons a rest ih => simp [List.flatMap_cons, ih]

theorem parseLoopSt_eq (store : List Phase) :
    parseLoopSt store = (store, parsedOf store) := by
  unfold parseLoopSt
  rw [foldl_append_pair]
  rw [flatMap_singleton_map (fun p => _parse_timeline_to_days p.timeline) store]
  rfl

theorem enumFrom_flatMap_distribute (rs : List (Int × Int × Int)) (td : Int) :
    ∀ (l : List Phase) (i0 : Nat),
      (List.enumFrom i0 l).flatMap (fun pr => distributePhase rs td pr.1 pr.2) =
        fallbackLoop rs td i0 l := by
  intro l
  induction l with
  | nil => intro i0; rfl
  | cons p rest ih =>
    intro i0
    rw [List.enumFrom_cons, List.flatMap_cons, fallbackLoop, ih (i0 + 1)]

theorem fallbackLoopSt_eq (rs : List (Int × Int × Int)) (td : Int)
    (store : List Phase) :
    fallbackLoopSt rs td store = (store, fallbackLoop rs td 0 store) := by
  unfold fallbackLoopSt
  rw [show store.enum = List.enumFrom 0 store from rfl, foldl_append_pair,
    enumFrom_flatMap_distribute rs td store 0]
  rfl

theorem fallback_st_eq (phases : List Phase) (td : Int)
    (ro : Option (List (Int × Int × Int))) :
    _fallback_distribute_tasks_st phases td ro =
      (phases, _fallback_distribute_tasks phases td ro) := by
  unfold _fallback_distribute_tasks_st _fallback_distribute_tasks
  by_cases h : phases = []
  · rw [if_pos h, if_pos h]
  · rw [if_neg h, if_neg h, fallbackLoopSt_eq]

/-- Claim C8: neither the allocator nor the schedule builder (including the
fallback distributor) mutates any input phase.  In the state-passing
translation — where every loop that walks the phase list threads the list
through and each iteration returns the store it received, exactly as the
source only reads `p.get(...)` and never assigns into a phase — the returned
store is the input phase list unchanged (every `title`, `timeline`, `goal`,
`tasks`, `success_criteria` intact), and the derived schedule data equals the
pure translation's output. -/
theorem core_no_phase_mutation (phases : List Phase) (total_days : Int)
    (ro : Option (List (Int × Int × Int))) (outcome : GenOutcome) :
    (compute_phase_day_ranges_st phases total_days).1 = phases ∧
    (compute_phase_day_ranges_st phases total_days).2 =
      compute_phase_day_ranges phases total_days ∧
    (_fallback_distribute_tasks_st phases total_days ro).1 = phases ∧
    (_fallback_distribute_tasks_st phases total_days ro).2 =
      _fallback_distribute_tasks phases total_days ro ∧
    (approve_roadmap_schedule_st phases total_days outcome).1 = phases ∧
    (approve_roadmap_schedule_st phases total_days outcome).2 =
      approve_roadmap_schedule phases total_days outcome := by
  have hc : compute_phase_day_ranges_st phases total_days =
      (phases, compute_phase_day_ranges phases total_days) := by
    unfold compute_phase_day_ranges_st
    rw [parseLoopSt_eq]
    rfl
  have hf := fallback_st_eq phases total_days ro
  refine ⟨by rw [hc], by rw [hc], by rw [hf], by rw [hf], ?_, ?_⟩
  · unfold approve_roadmap_schedule_st
    rw [hc]
    cases outcome with
    | raised =>
      dsimp only
      rw [fallback_st_eq]
    | returned data =>
      cases data with
      | none =>
        dsimp only
        rw [fallback_st_eq]
      | some items => rfl
  · unfold approve_roadmap_schedule_st approve_roadmap_schedule
      generate_daily_tasks_from_roadmap
    rw [hc]
    cases outcome with
    | raised =>
      dsimp only
      rw [fallback_st_eq]
    | returned data =>
      cases data with
      | none =>
        dsimp only
        rw [fallback_st_eq]
      | some items => rfl
